import Mathlib

/-!
Verification of the source-range component of the AST scope tree
(lib/AST/ASTScopeSourceRange.cpp). Scope nodes memoize a source range
computed from a per-kind childless range, an accumulated range of ignored
AST nodes, and the ranges of the children; a validation pass checks
containment and sibling ordering. Locations are modelled as natural
numbers: 0 is the invalid (null) location, and the order on valid
locations within one buffer is the order on the naturals, matching the
opaque total order the source consumes from the source manager.
-/

namespace SwiftASTScope

/-- A source range, a pair of locations. Following the source, a range is
valid exactly when its start location is valid. -/
structure SourceRange where
  Start : Nat
  End : Nat
deriving DecidableEq, Repr

/-- Modelled from the spec: the location primitive SourceRange.widen, the
union operation on ranges, which takes the smaller start and the larger
end by raw location value (the invalid location 0 is the least value,
as a null pointer is in the buffer order). -/
def SourceRange.widen (r other : SourceRange) : SourceRange :=
  ⟨if other.Start < r.Start then other.Start else r.Start,
   if r.End < other.End then other.End else r.End⟩

/-- Modelled from the spec: the source manager containment query, range A
contains range B iff A.Start is not after B.Start and B.End is not after
A.End (non-strict, per section 3 of the spec). -/
def rangeContains (enclosing inner : SourceRange) : Bool :=
  decide (enclosing.Start ≤ inner.Start ∧ inner.End ≤ enclosing.End)

/-- ASTScopeImpl.hasValidSourceRange on a cached range: both endpoints
valid and the end not before the start in the buffer. -/
def hasValidSourceRange (r : SourceRange) : Bool :=
  decide (0 < r.Start ∧ 0 < r.End ∧ ¬ r.End < r.Start)

/-- ASTScopeImpl.precedesInSource, over the cached ranges of the two
nodes: false unless both ranges are valid, else true iff the start of the
next node is not before the end of this one. -/
def precedesInSource (r next : SourceRange) : Bool :=
  if !hasValidSourceRange r || !hasValidSourceRange next then false
  else decide (¬ next.Start < r.End)

/-- End location of the last element of a nonempty list of child ranges,
as getChildren().back()->getSourceRange().End reads it. -/
def lastRangeEnd (first : SourceRange) (rest : List SourceRange) : Nat :=
  match rest with
  | [] => first.End
  | r :: rs => lastRangeEnd r rs

/-- ASTScopeImpl.getUncachedSourceRange. The childless range is the
output of the per-kind rule, the second range is the accumulated
sourceRangeOfIgnoredASTNodes, and childRanges lists the cached ranges of
the children in order. The value none models an assertion failure: a
childless node whose merged childless range has an invalid start, or (in
a non-debugging call) a first child whose range start is invalid. -/
def ASTScopeImpl.getUncachedSourceRange (forDebugging : Bool)
    (childless sourceRangeOfIgnoredASTNodes : SourceRange)
    (childRanges : List SourceRange) : Option SourceRange :=
  let childlessRange :=
    if 0 < sourceRangeOfIgnoredASTNodes.Start then
      SourceRange.widen childless sourceRangeOfIgnoredASTNodes
    else childless
  match childRanges with
  | [] => if 0 < childlessRange.Start then some childlessRange else none
  | first :: rest =>
    if forDebugging = false ∧ first.Start = 0 then none
    else
      let childRange : SourceRange := ⟨first.Start, lastRangeEnd first rest⟩
      if childlessRange.Start = 0 then some childRange
      else some (SourceRange.widen childRange childlessRange)

/-- ASTScopeImpl.getSourceRange over the memo cell. The cell is an
optional range, none while nothing was ever stored. The outer none of the
result models the assertion failure on querying an empty cell outside the
forDebugging path; the forDebugging path returns the empty range instead. -/
def ASTScopeImpl.getSourceRange (cachedSourceRange : Option SourceRange)
    (forDebugging : Bool) : Option SourceRange :=
  if forDebugging ∧ cachedSourceRange = none then some ⟨0, 0⟩
  else
    match cachedSourceRange with
    | none => none
    | some r => some r

/-- ASTScopeImpl.clearSourceRangeCache. The source assigns the default
invalid location to the cell; a location converts to the range with both
endpoints at that location, and assigning a range to the optional cell engages it. The
field type Optional of SourceRange is modelled from the spec, the
declaration being outside this file. So clearing stores an engaged cell
holding the invalid range, it does not return the cell to none. -/
def ASTScopeImpl.clearSourceRangeCache (_ : Option SourceRange) :
    Option SourceRange :=
  some ⟨0, 0⟩

/-- ASTScopeImpl.clearCachedSourceRangesOfAncestors over the chain of
memo cells from a node up to the root: clear this cell, recurse on the
parent chain. -/
def ASTScopeImpl.clearCachedSourceRangesOfAncestors :
    List (Option SourceRange) → List (Option SourceRange)
  | [] => []
  | c :: ancestors =>
      ASTScopeImpl.clearSourceRangeCache c ::
        ASTScopeImpl.clearCachedSourceRangesOfAncestors ancestors

/-- Data of a closure expression consumed by the rules: the parameter
list (absent when getParameters is null) as the start locations of its
parameters, the location of the in keyword, the left brace location of
the body when the body is present, and the start of the closure. -/
structure ClosureExpr where
  params : Option (List Nat)
  inLoc : Nat
  bodyLBrace : Option Nat
  startLoc : Nat
deriving DecidableEq, Repr

/-- The static helper getStartOfFirstParam: the first parameter start
when the parameter list exists and is nonempty, else the in location when
valid, else the body left brace when the body exists, else the closure
start. -/
def getStartOfFirstParam (closure : ClosureExpr) : Nat :=
  match closure.params with
  | some (p :: _) => p
  | _ =>
    if 0 < closure.inLoc then closure.inLoc
    else
      match closure.bodyLBrace with
      | some lbrace => lbrace
      | none => closure.startLoc

/-- ClosureParametersScope.getChildlessSourceRange. The none result
models the assertion that such a scope is only created for closures with
a valid in location. -/
def ClosureParametersScope.getChildlessSourceRange (closure : ClosureExpr) :
    Option SourceRange :=
  if 0 < closure.inLoc then
    some ⟨getStartOfFirstParam closure, closure.inLoc⟩
  else none

/-- Holder of a generic parameter scope: either a protocol declaration
(with its braces start and end location) or another generic context
(with its start and end location). -/
inductive GenericHolder where
  | protocolDecl (bracesStart endLoc : Nat)
  | nominalOrExtension (startLoc endLoc : Nat)
deriving DecidableEq, Repr

/-- GenericParamScope.getChildlessSourceRange; paramEnd is the end
location of the generic parameter at this scope index. For a protocol
the range runs from the braces start to the protocol end; otherwise from
the parameter end location, falling back to the holder start when that
location is invalid, to the holder end. -/
def GenericParamScope.getChildlessSourceRange (holder : GenericHolder)
    (paramEnd : Nat) : SourceRange :=
  match holder with
  | .protocolDecl bracesStart endLoc => ⟨bracesStart, endLoc⟩
  | .nominalOrExtension startLoc endLoc =>
      ⟨if paramEnd = 0 then startLoc else paramEnd, endLoc⟩

/-- Kind of a statement condition element. -/
inductive StmtConditionKind where
  | boolean
  | availability
  | patternBinding
deriving DecidableEq, Repr

/-- A statement condition element: its kind and its start location. -/
structure StmtConditionElement where
  kind : StmtConditionKind
  startLoc : Nat
deriving DecidableEq, Repr

/-- Data of a guard statement consumed by the rule: the condition
elements and the start and end locations of the body (the else block). -/
structure GuardStmt where
  cond : List StmtConditionElement
  bodyStart : Nat
  bodyEnd : Nat
deriving DecidableEq, Repr

/-- ConditionalClauseScope.startLocAccordingToCondition: for a boolean or
availability element its own start location; for a pattern binding
element the start of the next condition element when one exists, else the
invalid location. -/
def startLocAccordingToCondition (cond : List StmtConditionElement)
    (index : Nat) : Nat :=
  match cond[index]? with
  | none => 0
  | some c =>
    match c.kind with
    | .boolean => c.startLoc
    | .availability => c.startLoc
    | .patternBinding =>
      match cond[index + 1]? with
      | some nextc => nextc.startLoc
      | none => 0

/-- GuardConditionalClauseScope.getChildlessSourceRange: from the
condition start (falling back to the body start when invalid) to the
start of the body. -/
def GuardConditionalClauseScope.getChildlessSourceRange (stmt : GuardStmt)
    (index : Nat) : SourceRange :=
  let startLoc := startLocAccordingToCondition stmt.cond index
  ⟨if startLoc = 0 then stmt.bodyStart else startLoc, stmt.bodyStart⟩

/-- Data of one pattern binding entry consumed by the use scope rule: the
end of its range computed omitting accessors, and the end of its full
range. -/
structure PatternEntry where
  endOmittingAccessors : Nat
  fullEnd : Nat
deriving DecidableEq, Repr

/-- PatternEntryUseScope.getChildlessSourceRange; initializerEnd is the
recorded effective end of a separate initializer scope, invalid when
there is none (the recording condition lives in the tree construction
pass, outside this file). The base range runs from the accessor-omitting
end to the full end; when initializerEnd is valid the range is widened by
the point range at initializerEnd and its start is then set to
initializerEnd. -/
def PatternEntryUseScope.getChildlessSourceRange (entry : PatternEntry)
    (initializerEnd : Nat) : SourceRange :=
  let range : SourceRange := ⟨entry.endOmittingAccessors, entry.fullEnd⟩
  if 0 < initializerEnd then
    let widened := SourceRange.widen range ⟨initializerEnd, initializerEnd⟩
    ⟨initializerEnd, widened.End⟩
  else range

mutual

/-- An expression subtree, as far as the effective end walk observes it:
an interpolated string literal (carrying its trailing quote location), an
editor placeholder (carrying its trailing angle bracket location), or any
other expression, each with its location, its end location and its
subexpressions. The loc field is the location accessor the walk consults
for the range start; the spec identifies it with the expression start. -/
inductive Expr : Type where
  | interpolatedStringLiteral
      (loc endLoc trailingQuoteLoc : Nat) (subExprs : ExprList)
  | editorPlaceholder
      (loc endLoc trailingAngleBracketLoc : Nat) (subExprs : ExprList)
  | otherExpr (loc endLoc : Nat) (subExprs : ExprList)

/-- A list of subexpressions, mutually with Expr. -/
inductive ExprList : Type where
  | nil
  | cons (head : Expr) (tail : ExprList)

end

/-- Location accessor of an expression. -/
def Expr.loc : Expr → Nat
  | .interpolatedStringLiteral l _ _ _ => l
  | .editorPlaceholder l _ _ _ => l
  | .otherExpr l _ _ => l

/-- End location accessor of an expression. -/
def Expr.endLoc : Expr → Nat
  | .interpolatedStringLiteral _ e _ _ => e
  | .editorPlaceholder _ e _ _ => e
  | .otherExpr _ e _ => e

/-- One update step of the EffectiveEndFinder walker: replace the running
end by the candidate location when the running end is invalid or before
the candidate in the buffer. -/
def finderUpdate (runningEnd candidate : Nat) : Nat :=
  if runningEnd = 0 ∨ runningEnd < candidate then candidate else runningEnd

mutual

/-- The EffectiveEndFinder walk over an expression, threading the running
end through a preorder traversal: an interpolated string literal offers
its trailing quote location, an editor placeholder its trailing angle
bracket location, and the walk always descends into subexpressions. -/
def walkFindEnd : Expr → Nat → Nat
  | .interpolatedStringLiteral _ _ q subs, e =>
      walkFindEndList subs (finderUpdate e q)
  | .editorPlaceholder _ _ a subs, e =>
      walkFindEndList subs (finderUpdate e a)
  | .otherExpr _ _ subs, e => walkFindEndList subs e

/-- The EffectiveEndFinder walk over a list of subexpressions. -/
def walkFindEndList : ExprList → Nat → Nat
  | .nil, e => e
  | .cons x xs, e => walkFindEndList xs (walkFindEnd x e)

end

mutual

/-- All trailing boundary locations an expression subtree offers to the
walker, in preorder: the trailing quote locations of its interpolated
string literals and the trailing angle bracket locations of its editor
placeholders. -/
def trailingBoundaryLocs : Expr → List Nat
  | .interpolatedStringLiteral _ _ q subs => q :: trailingBoundaryLocsList subs
  | .editorPlaceholder _ _ a subs => a :: trailingBoundaryLocsList subs
  | .otherExpr _ _ subs => trailingBoundaryLocsList subs

/-- Trailing boundary locations of a list of subexpressions. -/
def trailingBoundaryLocsList : ExprList → List Nat
  | .nil => []
  | .cons x xs => trailingBoundaryLocs x ++ trailingBoundaryLocsList xs

end

/-- An AST node handed to the ignored-node widener: a declaration or a
statement, of which only the source range is consulted, or an expression
subtree. -/
inductive ASTNode where
  | decl (range : SourceRange)
  | stmt (range : SourceRange)
  | expr (e : Expr)

/-- ASTScopeImpl.getEffectiveSourceRange: for declarations and statements
their own range; for an expression, from its location to the trailing
location the walker found when that is valid, else to its own end. -/
def ASTScopeImpl.getEffectiveSourceRange (n : ASTNode) : SourceRange :=
  match n with
  | .decl r => r
  | .stmt r => r
  | .expr e =>
      let trailing := walkFindEnd e 0
      ⟨e.loc, if 0 < trailing then trailing else e.endLoc⟩

/-- ASTScopeImpl.widenSourceRangeForIgnoredASTNode, as a function from
the accumulated sourceRangeOfIgnoredASTNodes to its new value. The flag
isCreatedDirectly is the AbstractPatternEntryScope.isCreatedDirectly test
on the node, modelled from the spec as an input since its definition
lives in the tree construction pass: when it holds the node is skipped.
Otherwise an invalid effective range leaves the accumulated range
untouched, a first valid effective range is assigned, and any later one
widens the accumulated range. -/
def ASTScopeImpl.widenSourceRangeForIgnoredASTNode (isCreatedDirectly : Bool)
    (sourceRangeOfIgnoredASTNodes : SourceRange) (n : ASTNode) : SourceRange :=
  if isCreatedDirectly then sourceRangeOfIgnoredASTNodes
  else
    let r := ASTScopeImpl.getEffectiveSourceRange n
    if r.Start = 0 then sourceRangeOfIgnoredASTNodes
    else if sourceRangeOfIgnoredASTNodes.Start = 0 then r
    else SourceRange.widen sourceRangeOfIgnoredASTNodes r

mutual

/-- A scope node before range caching: the childless range its per-kind
rule produces, its accumulated ignored-node range (the empty invalid
range when none was recorded), and its children in source order. -/
inductive ScopeTree : Type where
  | node (childless ignored : SourceRange) (children : ScopeForest)

/-- An ordered forest of sibling scope nodes. -/
inductive ScopeForest : Type where
  | nil
  | cons (head : ScopeTree) (tail : ScopeForest)

end

mutual

/-- A scope node after range caching, each node annotated with its cached
source range. -/
inductive CachedScope : Type where
  | node (range : SourceRange) (children : CachedForest)

/-- An ordered forest of cached sibling scope nodes. -/
inductive CachedForest : Type where
  | nil
  | cons (head : CachedScope) (tail : CachedForest)

end

/-- The cached range of a cached scope node. -/
def CachedScope.range : CachedScope → SourceRange
  | .node r _ => r

/-- The cached ranges of a forest, in order, as the list the range
computation reads from the children. -/
def cachedRanges : CachedForest → List SourceRange
  | .nil => []
  | .cons c cs => c.range :: cachedRanges cs

/-- End location of the cached range of the last node of a nonempty
forest, read as getChildren().back(). -/
def forestLastEnd (first : CachedScope) (rest : CachedForest) : Nat :=
  match rest with
  | .nil => first.range.End
  | .cons c cs => forestLastEnd c cs

/-- A structural validation failure: a fatal internal error carrying the
nodes the verification reports before aborting, or a failed assertion
inside the range computation itself. -/
inductive VerificationError : Type where
  | childrenNotContained
      (firstChild lastChild : CachedScope) (parentRange : SourceRange)
  | outOfOrder (priorSibling thisNode : CachedScope)
  | rangeAssertionFailed

/-- The last node of a nonempty forest. -/
def forestLast (first : CachedScope) (rest : CachedForest) : CachedScope :=
  match rest with
  | .nil => first
  | .cons c cs => forestLast c cs

/-- ASTScopeImpl.verifyThatChildrenAreContained on a node whose cached
range is parentRange: with children, the range from the first child range
start to the last child range end must be contained in parentRange; a
violation reports the first and last child and the parent and aborts
(the error value). -/
def verifyThatChildrenAreContained (parentRange : SourceRange)
    (children : CachedForest) : Except VerificationError Bool :=
  match children with
  | .nil => .ok true
  | .cons first rest =>
    let rangeOfChildren : SourceRange :=
      ⟨first.range.Start, forestLastEnd first rest⟩
    if rangeContains parentRange rangeOfChildren then .ok true
    else .error (.childrenNotContained first (forestLast first rest) parentRange)

/-- The verifyThatThisNodeComeAfterItsPriorSibling checks of all the
nodes of one sibling forest: each node after the first must be preceded
in source by its prior sibling; a violation reports the two siblings and
aborts. -/
def verifySiblingOrder : CachedForest → Except VerificationError Bool
  | .nil => .ok true
  | .cons _ .nil => .ok true
  | .cons a (.cons b rest) =>
      if precedesInSource a.range b.range then
        verifySiblingOrder (.cons b rest)
      else .error (.outOfOrder a b)

mutual

/-- One full caching pass, bottom up: cache the children, compute this
node range from the childless range, the ignored range and the cached
child ranges (cacheSourceRange), then run the structural verification
as verifySourceRange does after every caching. A failed verification or
assertion aborts the whole pass with the reported error. -/
def cachePass : ScopeTree → Except VerificationError CachedScope
  | .node childless ignored children =>
    match cachePassForest children with
    | .error e => .error e
    | .ok cc =>
      match ASTScopeImpl.getUncachedSourceRange false childless ignored
          (cachedRanges cc) with
      | none => .error .rangeAssertionFailed
      | some r =>
        match verifyThatChildrenAreContained r cc with
        | .error e => .error e
        | .ok _ =>
          match verifySiblingOrder cc with
          | .error e => .error e
          | .ok _ => .ok (.node r cc)

/-- The caching pass over a forest of siblings, left to right. -/
def cachePassForest : ScopeForest → Except VerificationError CachedForest
  | .nil => .ok .nil
  | .cons t ts =>
    match cachePass t with
    | .error e => .error e
    | .ok c =>
      match cachePassForest ts with
      | .error e => .error e
      | .ok cs => .ok (.cons c cs)

end

/-- The containment statement of one node, in the words of the claim:
with children, the range spanning the first child range start to the last
child range end is contained in the node cached range. -/
def spanContained (r : SourceRange) (cs : CachedForest) : Bool :=
  match cs with
  | .nil => true
  | .cons first rest =>
      rangeContains r ⟨first.range.Start, forestLastEnd first rest⟩

mutual

/-- The containment invariant over a whole cached tree. -/
def childrenContainedInvariant : CachedScope → Bool
  | .node r cs => spanContained r cs && childrenContainedInvariantForest cs

/-- The containment invariant over a cached forest. -/
def childrenContainedInvariantForest : CachedForest → Bool
  | .nil => true
  | .cons c cs =>
      childrenContainedInvariant c && childrenContainedInvariantForest cs

end

/-- The ordering statement of one sibling forest, in the words of the
claim: every node range starts at or after the range end of its
immediately preceding sibling. -/
def startsAfterPriorEnd : CachedForest → Bool
  | .nil => true
  | .cons _ .nil => true
  | .cons a (.cons b rest) =>
      decide (a.range.End ≤ b.range.Start) &&
        startsAfterPriorEnd (.cons b rest)

mutual

/-- The sibling ordering invariant over a whole cached tree. -/
def siblingOrderInvariant : CachedScope → Bool
  | .node _ cs => startsAfterPriorEnd cs && siblingOrderInvariantForest cs

/-- The sibling ordering invariant over a cached forest. -/
def siblingOrderInvariantForest : CachedForest → Bool
  | .nil => true
  | .cons c cs => siblingOrderInvariant c && siblingOrderInvariantForest cs

end

theorem widen_minmax (r o : SourceRange) :
    SourceRange.widen r o = ⟨min r.Start o.Start, max r.End o.End⟩ := by
  unfold SourceRange.widen
  simp only [SourceRange.mk.injEq]
  constructor <;> (split_ifs <;> omega)

theorem precedesInSource_le (a b : SourceRange)
    (h : precedesInSource a b = true) : a.End ≤ b.Start := by
  unfold precedesInSource at h
  split_ifs at h with hcond
  simpa using h

/-- C9: precedesInSource holds exactly when both cached ranges are valid
(both endpoints valid and the start not after the end in the buffer) and
the end of the first range is not after the start of the second. -/
theorem precedesInSource_iff (a b : SourceRange) :
    precedesInSource a b = true ↔
      ((0 < a.Start ∧ 0 < a.End ∧ a.Start ≤ a.End) ∧
        (0 < b.Start ∧ 0 < b.End ∧ b.Start ≤ b.End) ∧
        a.End ≤ b.Start) := by
  unfold precedesInSource hasValidSourceRange
  split_ifs with hcond
  · simp only [Bool.or_eq_true, Bool.not_eq_true', decide_eq_false_iff_not]
      at hcond
    constructor
    · intro hf
      simp at hf
    · rintro ⟨ha, hb, hab⟩
      rcases hcond with h | h
      · exact absurd ⟨ha.1, ha.2.1, by omega⟩ h
      · exact absurd ⟨hb.1, hb.2.1, by omega⟩ h
  · simp only [Bool.or_eq_true, Bool.not_eq_true', decide_eq_false_iff_not,
      not_or, not_not] at hcond
    simp only [decide_eq_true_eq]
    obtain ⟨ha, hb⟩ := hcond
    constructor
    · intro hle
      exact ⟨⟨ha.1, ha.2.1, by omega⟩, ⟨hb.1, hb.2.1, by omega⟩, by omega⟩
    · rintro ⟨-, -, hab⟩
      omega

/-- C4 counterexample: on a non-protocol holder whose generic parameter
has an invalid end location, the scope range starts at the holder start
location, not at the parameter end location as the claim states. -/
theorem genericParamScope_fallback_counterexample :
    GenericParamScope.getChildlessSourceRange (.nominalOrExtension 3 30) 0 =
        ⟨3, 30⟩ ∧
      GenericParamScope.getChildlessSourceRange (.nominalOrExtension 3 30) 0 ≠
        ⟨0, 30⟩ := by
  exact ⟨rfl, by decide⟩

/-- C4 (amended): for a protocol holder the scope runs from the braces
start to the protocol end; for any other holder it runs from the generic
parameter end location when that location is valid, else from the holder
start location, to the holder end location. -/
theorem genericParamScope_childlessSourceRange
    (bracesStart protoEnd holderStart holderEnd paramEnd : Nat) :
    GenericParamScope.getChildlessSourceRange
        (.protocolDecl bracesStart protoEnd) paramEnd =
          ⟨bracesStart, protoEnd⟩ ∧
      GenericParamScope.getChildlessSourceRange
        (.nominalOrExtension holderStart holderEnd) paramEnd =
          ⟨if paramEnd = 0 then holderStart else paramEnd, holderEnd⟩ :=
  ⟨rfl, rfl⟩

/-- C5 counterexample: a guard conditional clause with a boolean
condition at 5 and a body running from 10 to 20 gets the range from 5 to
the body start 10, not to the body end 20 as the claim states. -/
theorem guardClause_end_counterexample :
    GuardConditionalClauseScope.getChildlessSourceRange
        ⟨[⟨.boolean, 5⟩], 10, 20⟩ 0 = ⟨5, 10⟩ ∧
      GuardConditionalClauseScope.getChildlessSourceRange
        ⟨[⟨.boolean, 5⟩], 10, 20⟩ 0 ≠ ⟨5, 20⟩ := by
  exact ⟨rfl, by decide⟩

/-- C5 (amended): a guard conditional clause scope starts at its own
condition element location when derivable (for a pattern binding element
the start of the next condition element), else falls back to the body
start, and ends at the start of the guarded body, not at its end. -/
theorem guardClause_childlessSourceRange (stmt : GuardStmt) (index : Nat) :
    GuardConditionalClauseScope.getChildlessSourceRange stmt index =
        ⟨if startLocAccordingToCondition stmt.cond index = 0 then stmt.bodyStart
          else startLocAccordingToCondition stmt.cond index,
          stmt.bodyStart⟩ ∧
      startLocAccordingToCondition stmt.cond index =
        (match stmt.cond[index]? with
          | none => 0
          | some c =>
            match c.kind with
            | .boolean => c.startLoc
            | .availability => c.startLoc
            | .patternBinding =>
              match stmt.cond[index + 1]? with
              | some nextc => nextc.startLoc
              | none => 0) :=
  ⟨rfl, rfl⟩

/-- C6 counterexample: a pattern entry ending at 10 (8 omitting
accessors is irrelevant here, 5 is used) with a recorded initializer
effective end 15 past the nominal end yields the range from 15 to 15,
not a range ending at the full end 10 as the claim states. -/
theorem patternEntryUse_end_counterexample :
    PatternEntryUseScope.getChildlessSourceRange ⟨5, 10⟩ 15 = ⟨15, 15⟩ ∧
      PatternEntryUseScope.getChildlessSourceRange ⟨5, 10⟩ 15 ≠ ⟨15, 10⟩ := by
  exact ⟨rfl, by decide⟩

/-- C6 (amended): the use scope runs from the accessor-omitting end of
the pattern entry to its full end; when an initializer effective end is
recorded, the start is pulled forward to that end and the range end is
widened to it as well, becoming the larger of the full end and the
recorded end. -/
theorem patternEntryUse_childlessSourceRange (entry : PatternEntry)
    (initializerEnd : Nat) :
    PatternEntryUseScope.getChildlessSourceRange entry initializerEnd =
      if 0 < initializerEnd then
        ⟨initializerEnd, max entry.fullEnd initializerEnd⟩
      else ⟨entry.endOmittingAccessors, entry.fullEnd⟩ := by
  unfold PatternEntryUseScope.getChildlessSourceRange SourceRange.widen
  split_ifs with h
  · simp only [SourceRange.mk.injEq, true_and]
    split_ifs <;> omega
  · rfl

/-- C3: for a closure whose in location is valid, the parameter scope
runs from the start of the first parameter, or, when parameters are
absent, from the in location, else the body left brace, else the closure
start, in that fallback order, to the in location. -/
theorem closureParametersScope_childlessSourceRange (closure : ClosureExpr)
    (h : 0 < closure.inLoc) :
    ClosureParametersScope.getChildlessSourceRange closure =
      some ⟨(match closure.params with
             | some (p :: _) => p
             | _ =>
               if 0 < closure.inLoc then closure.inLoc
               else
                 match closure.bodyLBrace with
                 | some lbrace => lbrace
                 | none => closure.startLoc),
            closure.inLoc⟩ := by
  unfold ClosureParametersScope.getChildlessSourceRange getStartOfFirstParam
  rw [if_pos h]

/-- Witness for C3 at a concrete closure with two parameters starting at
4 and 6, the in keyword at 9, body brace at 11 and start at 2. -/
theorem closureParametersScope_childlessSourceRange_witness :
    ClosureParametersScope.getChildlessSourceRange
        ⟨some [4, 6], 9, some 11, 2⟩ = some ⟨4, 9⟩ :=
  closureParametersScope_childlessSourceRange
    ⟨some [4, 6], 9, some 11, 2⟩ (by decide)

/-- C1 counterexample: with an invalid childless range, a valid ignored
range from 5 to 10 and one child spanning 2 to 3, the recomputed range
is the child span alone; the ignored range is dropped, so the result is
not the union the claim states under either reading of a union with an
invalid member. -/
theorem uncachedRange_drops_ignored_counterexample :
    ASTScopeImpl.getUncachedSourceRange false ⟨0, 0⟩ ⟨5, 10⟩ [⟨2, 3⟩] =
        some ⟨2, 3⟩ ∧
      some (⟨2, 3⟩ : SourceRange) ≠ some (⟨2, 10⟩ : SourceRange) ∧
      some (⟨2, 3⟩ : SourceRange) ≠ some (⟨0, 10⟩ : SourceRange) := by
  refine ⟨rfl, by decide, by decide⟩

/-- C1 (amended): provided the childless range has a valid start
location and, when children are present, the first child range has one
too, the recomputed range is the union (smallest start, largest end) of
the childless range, the ignored range when valid, and the span from the
first child range start to the last child range end. When the childless
range start is invalid, a node with children gets the child span alone,
the ignored range being dropped, and a node without children fails its
assertion even when the ignored range is valid. -/
theorem uncachedRange_union (childless ignored : SourceRange)
    (childRanges : List SourceRange)
    (hfirst : 0 < (childRanges.headD ⟨1, 1⟩).Start) :
    ASTScopeImpl.getUncachedSourceRange false childless ignored childRanges =
      (match childRanges with
       | [] =>
           if 0 < childless.Start then
             some (if 0 < ignored.Start then
                     (⟨min childless.Start ignored.Start,
                       max childless.End ignored.End⟩ : SourceRange)
                   else childless)
           else none
       | first :: rest =>
           if 0 < childless.Start then
             some (if 0 < ignored.Start then
                     (⟨min first.Start (min childless.Start ignored.Start),
                       max (lastRangeEnd first rest)
                         (max childless.End ignored.End)⟩ : SourceRange)
                   else
                     ⟨min first.Start childless.Start,
                       max (lastRangeEnd first rest) childless.End⟩)
           else some ⟨first.Start, lastRangeEnd first rest⟩) := by
  cases childRanges with
  | nil =>
    simp only [ASTScopeImpl.getUncachedSourceRange, widen_minmax]
    by_cases hi : 0 < ignored.Start
    · simp only [if_pos hi]
      by_cases hc : 0 < childless.Start
      · rw [if_pos (show 0 < min childless.Start ignored.Start by omega),
          if_pos hc]
      · rw [if_neg (show ¬ 0 < min childless.Start ignored.Start by omega),
          if_neg hc]
    · simp only [if_neg hi]
  | cons first rest =>
    simp only [List.headD_cons] at hfirst
    simp only [ASTScopeImpl.getUncachedSourceRange, widen_minmax]
    rw [if_neg (show ¬ (True ∧ first.Start = 0) by
      simp only [true_and]; omega)]
    by_cases hi : 0 < ignored.Start
    · simp only [if_pos hi]
      by_cases hc : 0 < childless.Start
      · rw [if_neg (show ¬ min childless.Start ignored.Start = 0 by omega),
          if_pos hc]
      · rw [if_pos (show min childless.Start ignored.Start = 0 by omega),
          if_neg hc]
    · simp only [if_neg hi]
      by_cases hc : 0 < childless.Start
      · rw [if_neg (show ¬ childless.Start = 0 by omega), if_pos hc]
      · rw [if_pos (show childless.Start = 0 by omega), if_neg hc]

/-- Witness for C1 at a node with childless range 2 to 6, ignored range
5 to 12 and two children spanning 3 to 4 and 7 to 8: the union is 2 to
12. -/
theorem uncachedRange_union_witness :
    ASTScopeImpl.getUncachedSourceRange false ⟨2, 6⟩ ⟨5, 12⟩
        [⟨3, 4⟩, ⟨7, 8⟩] = some ⟨2, 12⟩ := by
  have h := uncachedRange_union ⟨2, 6⟩ ⟨5, 12⟩ [⟨3, 4⟩, ⟨7, 8⟩] (by decide)
  simpa using h

/-- C8 counterexample: clearing the cache of a node whose range 3 to 7
was cached stores an engaged cell holding the invalid range, so a
non-debugging query right after invalidation returns that invalid range
normally instead of reaching the fatal assertion path. -/
theorem clearThenQuery_counterexample :
    ASTScopeImpl.clearSourceRangeCache (some ⟨3, 7⟩) = some ⟨0, 0⟩ ∧
      ASTScopeImpl.getSourceRange
        (ASTScopeImpl.clearSourceRangeCache (some ⟨3, 7⟩)) false =
          some ⟨0, 0⟩ ∧
      ASTScopeImpl.getSourceRange
        (ASTScopeImpl.clearSourceRangeCache (some ⟨3, 7⟩)) false ≠ none := by
  refine ⟨rfl, rfl, by decide⟩

/-- C8 (amended): querying a never-filled cache cell is fatal outside
the debugging path and yields the empty range on it; a stored value is
returned as is, even the invalid range invalidation stores; invalidation
replaces every cached value along the ancestor chain by the engaged
invalid range and recomputes nothing. -/
theorem sourceRangeCache_behavior (r : SourceRange) (fd : Bool)
    (ancestors : List (Option SourceRange)) :
    ASTScopeImpl.getSourceRange none false = none ∧
      ASTScopeImpl.getSourceRange none true = some ⟨0, 0⟩ ∧
      ASTScopeImpl.getSourceRange (some r) fd = some r ∧
      ASTScopeImpl.clearCachedSourceRangesOfAncestors ancestors =
        ancestors.map fun _ => some ⟨0, 0⟩ := by
  refine ⟨rfl, rfl, ?_, ?_⟩
  · cases fd <;> rfl
  · induction ancestors with
    | nil => rfl
    | cons c cs ih =>
      simp only [ASTScopeImpl.clearCachedSourceRangesOfAncestors,
        ASTScopeImpl.clearSourceRangeCache, List.map_cons, List.cons.injEq,
        true_and]
      exact ih

theorem finderUpdate_eq_max (runningEnd candidate : Nat) :
    finderUpdate runningEnd candidate = max runningEnd candidate := by
  unfold finderUpdate
  split_ifs <;> omega

mutual

theorem walkFindEnd_eq_foldl : ∀ (x : Expr) (acc : Nat),
    walkFindEnd x acc = (trailingBoundaryLocs x).foldl max acc
  | .interpolatedStringLiteral l e q subs, acc => by
    simp only [walkFindEnd, trailingBoundaryLocs, List.foldl_cons]
    rw [walkFindEndList_eq_foldl subs (finderUpdate acc q),
      finderUpdate_eq_max]
  | .editorPlaceholder l e a subs, acc => by
    simp only [walkFindEnd, trailingBoundaryLocs, List.foldl_cons]
    rw [walkFindEndList_eq_foldl subs (finderUpdate acc a),
      finderUpdate_eq_max]
  | .otherExpr l e subs, acc => by
    simp only [walkFindEnd, trailingBoundaryLocs]
    exact walkFindEndList_eq_foldl subs acc

theorem walkFindEndList_eq_foldl : ∀ (xs : ExprList) (acc : Nat),
    walkFindEndList xs acc = (trailingBoundaryLocsList xs).foldl max acc
  | .nil, acc => by
    simp only [walkFindEndList, trailingBoundaryLocsList, List.foldl_nil]
  | .cons x xs, acc => by
    simp only [walkFindEndList, trailingBoundaryLocsList, List.foldl_append]
    rw [walkFindEnd_eq_foldl x acc, walkFindEndList_eq_foldl xs]

end

/-- C7: for a non-skipped ignored node whose effective range is valid,
the accumulated ignored range becomes the union of its previous value
(or the effective range alone when nothing was accumulated yet) with the
effective range; the effective range of a declaration or a statement is
its own range, and that of an expression runs from its location to the
largest trailing boundary location of its subtree, or to its own end
location when no valid boundary is found. -/
theorem widenIgnored_union (acc : SourceRange) (n : ASTNode)
    (hvalid : 0 < (ASTScopeImpl.getEffectiveSourceRange n).Start) :
    ASTScopeImpl.widenSourceRangeForIgnoredASTNode false acc n =
        (if 0 < acc.Start then
          ⟨min acc.Start (ASTScopeImpl.getEffectiveSourceRange n).Start,
            max acc.End (ASTScopeImpl.getEffectiveSourceRange n).End⟩
        else ASTScopeImpl.getEffectiveSourceRange n) ∧
      ASTScopeImpl.getEffectiveSourceRange n =
        (match n with
         | .decl r => r
         | .stmt r => r
         | .expr e =>
             ⟨e.loc,
              if (trailingBoundaryLocs e).foldl max 0 = 0 then e.endLoc
              else (trailingBoundaryLocs e).foldl max 0⟩) := by
  constructor
  · unfold ASTScopeImpl.widenSourceRangeForIgnoredASTNode
    simp only [Bool.false_eq_true, if_false]
    rw [if_neg (show ¬ (ASTScopeImpl.getEffectiveSourceRange n).Start = 0 by
      omega)]
    by_cases ha : 0 < acc.Start
    · rw [if_neg (show ¬ acc.Start = 0 by omega), if_pos ha, widen_minmax]
    · rw [if_pos (show acc.Start = 0 by omega), if_neg ha]
  · cases n with
    | decl r => rfl
    | stmt r => rfl
    | expr e =>
      simp only [ASTScopeImpl.getEffectiveSourceRange, walkFindEnd_eq_foldl]
      simp only [SourceRange.mk.injEq, true_and]
      split_ifs <;> omega

/-- Witness for C7 at an accumulated range 5 to 10 and an interpolated
string literal at location 3 with nominal end 8 and trailing quote 12:
the accumulated range becomes 3 to 12. -/
theorem widenIgnored_union_witness :
    ASTScopeImpl.widenSourceRangeForIgnoredASTNode false ⟨5, 10⟩
        (.expr (.interpolatedStringLiteral 3 8 12 .nil)) = ⟨3, 12⟩ := by
  have h := (widenIgnored_union ⟨5, 10⟩
      (.expr (.interpolatedStringLiteral 3 8 12 .nil)) (by decide)).1
  simpa using h

/-- C10: for a non-skipped ignored node whose computed effective range is
invalid, the widener leaves the accumulated ignored range unchanged. -/
theorem widenIgnored_invalid_noop (acc : SourceRange) (n : ASTNode)
    (h : (ASTScopeImpl.getEffectiveSourceRange n).Start = 0) :
    ASTScopeImpl.widenSourceRangeForIgnoredASTNode false acc n = acc := by
  unfold ASTScopeImpl.widenSourceRangeForIgnoredASTNode
  simp [h]

/-- Witness for C10 at an accumulated range 5 to 10 and an expression at
the invalid location 0: the accumulated range stays 5 to 10. -/
theorem widenIgnored_invalid_noop_witness :
    ASTScopeImpl.widenSourceRangeForIgnoredASTNode false ⟨5, 10⟩
        (.expr (.otherExpr 0 9 .nil)) = ⟨5, 10⟩ :=
  widenIgnored_invalid_noop ⟨5, 10⟩ (.expr (.otherExpr 0 9 .nil)) (by decide)

theorem verifyChildren_ok_spanContained (r : SourceRange)
    (cc : CachedForest) (b : Bool)
    (h : verifyThatChildrenAreContained r cc = .ok b) :
    spanContained r cc = true := by
  cases cc with
  | nil => rfl
  | cons first rest =>
    simp only [verifyThatChildrenAreContained] at h
    split_ifs at h with hc
    simp only [spanContained]
    exact hc

theorem verifySiblingOrder_ok_startsAfter : ∀ (cc : CachedForest) (b : Bool),
    verifySiblingOrder cc = .ok b → startsAfterPriorEnd cc = true
  | .nil, b, h => rfl
  | .cons a .nil, b, h => rfl
  | .cons a (.cons c rest), b, h => by
    unfold verifySiblingOrder at h
    split_ifs at h with hp
    have ih := verifySiblingOrder_ok_startsAfter (.cons c rest) b h
    unfold startsAfterPriorEnd
    rw [Bool.and_eq_true, decide_eq_true_eq]
    exact ⟨precedesInSource_le a.range c.range hp, ih⟩

mutual

theorem cachePass_ok_inv : ∀ (t : ScopeTree) (ct : CachedScope),
    cachePass t = .ok ct →
    childrenContainedInvariant ct = true ∧ siblingOrderInvariant ct = true
  | .node childless ignored children, ct, h => by
    simp only [cachePass] at h
    split at h
    · exact absurd h (by simp)
    · rename_i cc hcc
      split at h
      · exact absurd h (by simp)
      · rename_i r hr
        split at h
        · exact absurd h (by simp)
        · rename_i bv hv
          split at h
          · exact absurd h (by simp)
          · rename_i bo ho
            simp only [Except.ok.injEq] at h
            subst h
            have hforest := cachePassForest_ok_inv children cc hcc
            refine ⟨?_, ?_⟩
            · simp only [childrenContainedInvariant, Bool.and_eq_true]
              exact ⟨verifyChildren_ok_spanContained r cc bv hv, hforest.1⟩
            · simp only [siblingOrderInvariant, Bool.and_eq_true]
              exact ⟨verifySiblingOrder_ok_startsAfter cc bo ho, hforest.2⟩

theorem cachePassForest_ok_inv : ∀ (ts : ScopeForest) (cc : CachedForest),
    cachePassForest ts = .ok cc →
    childrenContainedInvariantForest cc = true ∧
      siblingOrderInvariantForest cc = true
  | .nil, cc, h => by
    simp only [cachePassForest, Except.ok.injEq] at h
    subst h
    exact ⟨rfl, rfl⟩
  | .cons t ts, cc, h => by
    simp only [cachePassForest] at h
    split at h
    · exact absurd h (by simp)
    · rename_i c hc
      split at h
      · exact absurd h (by simp)
      · rename_i cs hcs
        simp only [Except.ok.injEq] at h
        subst h
        have h1 := cachePass_ok_inv t c hc
        have h2 := cachePassForest_ok_inv ts cs hcs
        refine ⟨?_, ?_⟩
        · simp only [childrenContainedInvariantForest, Bool.and_eq_true]
          exact ⟨h1.1, h2.1⟩
        · simp only [siblingOrderInvariantForest, Bool.and_eq_true]
          exact ⟨h1.2, h2.2⟩

end

/-- C2: a caching pass that completes without aborting establishes, at
every node of the resulting cached tree, that the range spanning the
first child range start to the last child range end is contained in the
node own cached range, and that every node starts at or after the range
end of its immediately preceding sibling; a violation of either check
instead aborts the pass with an error value carrying the nodes involved
(first and last child and the parent range, or the two out-of-order
siblings), so the pass never returns a cached tree in that case. -/
theorem cachingPass_establishes_invariants (t : ScopeTree) (ct : CachedScope)
    (h : cachePass t = .ok ct) :
    childrenContainedInvariant ct = true ∧ siblingOrderInvariant ct = true :=
  cachePass_ok_inv t ct h

/-- Witness for C2 at a concrete two-child tree: the parent childless
range 1 to 10 with children 2 to 3 and 4 to 9 passes the caching pass
and both invariants hold on the result. -/
theorem cachingPass_establishes_invariants_witness :
    cachePass (.node ⟨1, 10⟩ ⟨0, 0⟩
        (.cons (.node ⟨2, 3⟩ ⟨0, 0⟩ .nil)
          (.cons (.node ⟨4, 9⟩ ⟨0, 0⟩ .nil) .nil))) =
      .ok (.node ⟨1, 10⟩
        (.cons (.node ⟨2, 3⟩ .nil) (.cons (.node ⟨4, 9⟩ .nil) .nil))) ∧
    childrenContainedInvariant (.node ⟨1, 10⟩
        (.cons (.node ⟨2, 3⟩ .nil) (.cons (.node ⟨4, 9⟩ .nil) .nil))) = true ∧
    siblingOrderInvariant (.node ⟨1, 10⟩
        (.cons (.node ⟨2, 3⟩ .nil) (.cons (.node ⟨4, 9⟩ .nil) .nil))) = true := by
  have hp : cachePass (.node ⟨1, 10⟩ ⟨0, 0⟩
      (.cons (.node ⟨2, 3⟩ ⟨0, 0⟩ .nil)
        (.cons (.node ⟨4, 9⟩ ⟨0, 0⟩ .nil) .nil))) =
      .ok (.node ⟨1, 10⟩
        (.cons (.node ⟨2, 3⟩ .nil) (.cons (.node ⟨4, 9⟩ .nil) .nil))) := by
    rfl
  have hi := cachingPass_establishes_invariants _ _ hp
  exact ⟨hp, hi.1, hi.2⟩

end SwiftASTScope
